import Mathlib

/-!
Verification development for the stack orchestrator of `pkg/project/stack.go`
(repository `ion`).  The Go source is shallowly embedded: pure helpers become
Lean functions, the `Run` orchestration becomes an explicit trace-producing
function over a record of external-call outcomes, and Go panics (failed type
assertions, out-of-range indexing) are modelled with `Option`.
-/

namespace IonStack

/-- A JSON value as produced by Go's `json.Unmarshal` into `interface{}`:
`nil`, `bool`, `float64` (the claims only exercise integral numbers, so the
number payload is modelled as `Int`), `string`, `[]interface{}`, and
`map[string]interface{}` (modelled as an association list with unique keys;
Go maps are unordered, the list order stands in for one iteration order). -/
inductive Json where
  | null : Json
  | bool (b : Bool) : Json
  | num (n : Int) : Json
  | str (s : String) : Json
  | arr (xs : List Json) : Json
  | obj (fields : List (String × Json)) : Json

/-- Go map read `o[key]`: the first binding for `key`, if any. -/
def lookupField (o : List (String × Json)) (key : String) : Option Json :=
  (o.find? (fun kv => kv.fst == key)).map (fun kv => kv.snd)

/-- Go `strings.HasPrefix(s, pre)` over the character lists. -/
def listPre : List Char → List Char → Bool
  | [], _ => true
  | _ :: _, [] => false
  | a :: as, b :: bs => a == b && listPre as bs

/-- Go `strings.HasPrefix(s, pre)`. -/
def strHasPre (pre s : String) : Bool :=
  listPre pre.toList s.toList

/-! ### A small JSON parser, modelling `json.Unmarshal` into `interface{}`.
The parser is fuel-indexed structural recursion so that concrete inputs
evaluate by kernel reduction.  On malformed input `json.Unmarshal` leaves the
`any` target at its zero value `nil`; `goJsonParse` returns `Json.null` then. -/

def isWs (c : Char) : Bool :=
  c == ' ' || c == '\t' || c == '\n' || c == '\r'

def skipWs : List Char → List Char
  | [] => []
  | c :: rest => if isWs c then skipWs rest else c :: rest

def isDigitCh (c : Char) : Bool :=
  '0' ≤ c && c ≤ '9'

def digitVal (c : Char) : Int :=
  Int.ofNat (c.toNat - '0'.toNat)

def parseDigits (acc : Int) : List Char → (Int × List Char)
  | [] => (acc, [])
  | c :: rest =>
    if isDigitCh c then parseDigits (acc * 10 + digitVal c) rest
    else (acc, c :: rest)

/-- Parse the remainder of a string literal (the opening quote already
consumed), handling the `\"`, `\\` and `\/` escapes the claims exercise. -/
def parseStrLit : List Char → Option (String × List Char)
  | [] => none
  | '"' :: rest => some ("", rest)
  | '\\' :: c :: rest => do
    let (s, r) ← parseStrLit rest
    some (String.mk (c :: s.toList), r)
  | c :: rest => do
    let (s, r) ← parseStrLit rest
    some (String.mk (c :: s.toList), r)

mutual

def parseVal : Nat → List Char → Option (Json × List Char)
  | 0, _ => none
  | Nat.succ fuel, cs =>
    match skipWs cs with
    | 'n' :: 'u' :: 'l' :: 'l' :: rest => some (Json.null, rest)
    | 't' :: 'r' :: 'u' :: 'e' :: rest => some (Json.bool true, rest)
    | 'f' :: 'a' :: 'l' :: 's' :: 'e' :: rest => some (Json.bool false, rest)
    | '"' :: rest => do
      let (s, r) ← parseStrLit rest
      some (Json.str s, r)
    | '[' :: rest => parseItems fuel (skipWs rest)
    | '{' :: rest => parseFields fuel (skipWs rest)
    | '-' :: c :: rest =>
      if isDigitCh c then
        let (n, r) := parseDigits (digitVal c) rest
        some (Json.num (-n), r)
      else none
    | c :: rest =>
      if isDigitCh c then
        let (n, r) := parseDigits (digitVal c) rest
        some (Json.num n, r)
      else none
    | [] => none

def parseItems : Nat → List Char → Option (Json × List Char)
  | 0, _ => none
  | Nat.succ fuel, cs =>
    match cs with
    | ']' :: rest => some (Json.arr [], rest)
    | _ => do
      let (v, r) ← parseVal fuel cs
      match skipWs r with
      | ',' :: r2 => do
        let (tl, r3) ← parseItems fuel (skipWs r2)
        match tl with
        | Json.arr xs => some (Json.arr (v :: xs), r3)
        | _ => none
      | ']' :: r2 => some (Json.arr [v], r2)
      | _ => none

def parseFields : Nat → List Char → Option (Json × List Char)
  | 0, _ => none
  | Nat.succ fuel, cs =>
    match cs with
    | '}' :: rest => some (Json.obj [], rest)
    | '"' :: rest => do
      let (k, r) ← parseStrLit rest
      match skipWs r with
      | ':' :: r2 => do
        let (v, r3) ← parseVal fuel (skipWs r2)
        match skipWs r3 with
        | ',' :: r4 => do
          let (tl, r5) ← parseFields fuel (skipWs r4)
          match tl with
          | Json.obj fs => some (Json.obj ((k, v) :: fs), r5)
          | _ => none
        | '}' :: r4 => some (Json.obj [(k, v)], r4)
        | _ => none
      | _ => none
    | _ => none

end

/-- Model of `json.Unmarshal([]byte(s), &parsed)` where `parsed : any`:
on any parse error (including trailing garbage) the target keeps its zero
value `nil`, i.e. `Json.null`. -/
def goJsonParse (s : String) : Json :=
  match parseVal (2 * s.length + 8) s.toList with
  | some (v, rest) => if skipWs rest = [] then v else Json.null
  | none => Json.null

/-! ### `decrypt` (stack.go lines 630-646).
For each entry of the map: a nested object whose `plaintext` field is present
and non-nil is replaced by the parse of that field (the Go type assertion
`.(string)` panics when the field holds a non-string, modelled as `none`);
any other nested object is decrypted recursively; every other value kind
falls into the `default` branch and is left unchanged — note that this
includes arrays, whose elements are never visited. -/

mutual

def decryptVal : Json → Option Json
  | Json.obj o =>
    match lookupField o "plaintext" with
    | some Json.null => Json.obj <$> decryptObj o
    | some (Json.str s) => some (goJsonParse s)
    | some _ => none
    | none => Json.obj <$> decryptObj o
  | v => some v

def decryptObj : List (String × Json) → Option (List (String × Json))
  | [] => some []
  | (k, v) :: rest => do
    let v2 ← decryptVal v
    let rest2 ← decryptObj rest
    some ((k, v2) :: rest2)

end

/-! Predicates stating that no object anywhere in a value carries a
`plaintext` field (the hypothesis of the idempotence claim). -/

mutual

def valNoPT : Json → Bool
  | Json.obj o => (lookupField o "plaintext").isNone && fieldsNoPT o
  | Json.arr xs => listNoPT xs
  | _ => true

def listNoPT : List Json → Bool
  | [] => true
  | v :: rest => valNoPT v && listNoPT rest

def fieldsNoPT : List (String × Json) → Bool
  | [] => true
  | (_, v) :: rest => valNoPT v && fieldsNoPT rest

end

/-! ### The decryption step as the (amended) specification words it.
`DecryptsTo v v2` transcribes: an object carrying a non-null string
`plaintext` field is replaced by the JSON value parsed from that string;
an object without such a field is decrypted field-by-field recursively;
every non-object value — null, bool, number, string, and in particular an
array together with all of its elements — passes through unchanged. -/

mutual

inductive DecryptsTo : Json → Json → Prop
  | passNull : DecryptsTo Json.null Json.null
  | passBool (b : Bool) : DecryptsTo (Json.bool b) (Json.bool b)
  | passNum (n : Int) : DecryptsTo (Json.num n) (Json.num n)
  | passStr (s : String) : DecryptsTo (Json.str s) (Json.str s)
  | passArr (xs : List Json) : DecryptsTo (Json.arr xs) (Json.arr xs)
  | wrapper (o : List (String × Json)) (s : String)
      (h : lookupField o "plaintext" = some (Json.str s)) :
      DecryptsTo (Json.obj o) (goJsonParse s)
  | recurse (o o2 : List (String × Json))
      (h : lookupField o "plaintext" = none ∨ lookupField o "plaintext" = some Json.null)
      (h2 : DecryptsFields o o2) : DecryptsTo (Json.obj o) (Json.obj o2)

inductive DecryptsFields : List (String × Json) → List (String × Json) → Prop
  | nil : DecryptsFields [] []
  | cons (k : String) (v v2 : Json) (rest rest2 : List (String × Json))
      (h : DecryptsTo v v2) (h2 : DecryptsFields rest rest2) :
      DecryptsFields ((k, v) :: rest) ((k, v2) :: rest2)

end

/-! ### Event aggregator (stack.go lines 289-323).
The goroutine drains the engine event channel.  `DiagnosticEvent` and
`SummaryEvent` are the two payloads the loop inspects.  Per event, in source
order: an error-severity diagnostic whose message starts with
"update failed" hits `break`, which in Go exits the enclosing `select` and
so skips the remainder of the loop body (callback, summary check, log
write); any other error-severity diagnostic is appended to the error list;
then the event is forwarded to `input.OnEvent`, the summary flag is checked,
and the raw event is appended to the event log (the log entry's JSON
serialization is modelled by the event value itself). -/

structure DiagnosticEventM where
  severity : String
  message : String
  urn : String
deriving DecidableEq, Repr

structure EngineEventM where
  diagnostic : Option DiagnosticEventM
  summary : Bool
deriving DecidableEq, Repr

structure ErrorM where
  message : String
  urn : String
deriving DecidableEq, Repr

structure AggSt where
  errors : List ErrorM
  finished : Bool
  forwarded : List EngineEventM
  logged : List EngineEventM
deriving DecidableEq, Repr

/-- The tail of the loop body after the diagnostic classification:
forward to the caller's callback, mark finished on a summary event,
append the serialized event to the log. -/
def afterDiag (st : AggSt) (e : EngineEventM) : AggSt :=
  let st1 := { st with forwarded := st.forwarded ++ [e] }
  let st2 := if e.summary then { st1 with finished := true } else st1
  { st2 with logged := st2.logged ++ [e] }

/-- One iteration of the consumer loop for one received event. -/
def processEvent (st : AggSt) (e : EngineEventM) : AggSt :=
  match e.diagnostic with
  | some d =>
    if d.severity = "error" then
      if strHasPre "update failed" d.message then st
      else afterDiag { st with errors := st.errors ++ [⟨d.message, d.urn⟩] } e
    else afterDiag st e
  | none => afterDiag st e

def initAggSt : AggSt := ⟨[], false, [], []⟩

/-- The aggregator state after the channel delivered `events` and closed. -/
def runAgg (events : List EngineEventM) : AggSt :=
  events.foldl processEvent initAggSt

/-- An event is suppressed when it is an error-severity diagnostic whose
message carries the generic "update failed" prefix. -/
def suppressedEvt (e : EngineEventM) : Bool :=
  match e.diagnostic with
  | some d => d.severity == "error" && strHasPre "update failed" d.message
  | none => false

/-- The error record an event contributes, if any. -/
def errOf (e : EngineEventM) : Option ErrorM :=
  match e.diagnostic with
  | some d =>
    if d.severity = "error" && !(strHasPre "update failed" d.message) then
      some ⟨d.message, d.urn⟩
    else none
  | none => none

/-- Whether some processed event sets the finished flag: a summary event
that is not suppressed (a suppressed event's summary flag is never read,
since `break` skips that check). -/
def setsFinished (e : EngineEventM) : Bool :=
  !(suppressedEvt e) && e.summary

/-! ### Errors (stack.go lines 93-94 and the `provider` package sentinels).
`errors.Is` unwraps `fmt.Errorf("...: %w", err)` wrapping, while the lock
check `err == provider.ErrLockExists` is plain equality on the sentinel. -/

inductive GoErr where
  | lockExists : GoErr
  | stateNotFound : GoErr
  | stageNotFound : GoErr
  | stackRunFailed : GoErr
  | msg (s : String) : GoErr
  | wrapped (ctx : String) (e : GoErr) : GoErr
deriving DecidableEq, Repr

/-- `errors.Is(err, provider.ErrStateNotFound)`: matches through wrapping. -/
def isStateNotFound : GoErr → Bool
  | GoErr.stateNotFound => true
  | GoErr.wrapped _ e => isStateNotFound e
  | _ => false

/-! ### `Unlock` (stack.go lines 569-586).
`Unlock` reads the working directory, removes (in directory order) every
file whose name starts with "Pulumi", and only then calls the provider's
remote unlock.  A `ReadDir` or `Remove` failure returns immediately, so the
remote unlock is skipped on those paths.  The filesystem is abstracted as
the directory listing plus, per file, whether `os.Remove` succeeds. -/

structure DirFile where
  name : String
  removable : Bool
deriving DecidableEq, Repr

structure UnlockFS where
  readDirOk : Bool
  files : List DirFile
deriving DecidableEq, Repr

structure UnlockOut where
  err : Option GoErr
  removed : List String
  remoteReleased : Bool
deriving DecidableEq, Repr

def unlockLoop (removed : List String) : List DirFile → UnlockOut
  | [] => ⟨none, removed, true⟩
  | f :: rest =>
    if strHasPre "Pulumi" f.name then
      if f.removable then unlockLoop (removed ++ [f.name]) rest
      else ⟨some (GoErr.msg ("remove " ++ f.name)), removed, false⟩
    else unlockLoop removed rest

def unlockModel (fs : UnlockFS) : UnlockOut :=
  if fs.readDirOk then unlockLoop [] fs.files
  else ⟨some (GoErr.msg "readdir"), [], false⟩

/-! ### Snapshot resources (`apitype.ResourceV3`, the fields stack.go touches). -/

structure ResourceV3 where
  urn : String
  parent : String
  custom : Bool
  id : String
  typ : String
  outputs : List (String × Json)

/-- The Go zero value `apitype.ResourceV3{}` appended before field assignment. -/
def emptyResourceV3 : ResourceV3 := ⟨"", "", false, "", "", []⟩

/-! ### Output extraction (stack.go lines 325-393, the deferred finalizer).
Given the decrypted outputs of the first snapshot resource, the finalizer
pulls out the reserved keys and copies every key not starting with "_" into
the generic outputs.  Each reserved key, when present, is read through a Go
type assertion to `map[string]interface{}` — a non-object value panics
(modelled `none`).  The engine's JSON round-trip of each `_warps` /
`_receivers` entry into its typed struct is modelled as the raw JSON value,
since no claim inspects those structs' fields. -/

structure Extracted where
  links : List (String × Json)
  hints : List (String × String)
  warps : List (String × Json)
  receivers : List (String × Json)
  outputs : List (String × Json)

/-- String-valued entries of `_hints` (non-strings are skipped by the
`value.(string)` comma-ok assertion). -/
def stringEntries (o : List (String × Json)) : List (String × String) :=
  o.filterMap (fun kv =>
    match kv.snd with
    | Json.str s => some (kv.fst, s)
    | _ => none)

/-- Read a reserved key: absent yields the empty map, an object yields its
fields, anything else is a failed type assertion. -/
def reservedObj (outs : List (String × Json)) (key : String) :
    Option (List (String × Json)) :=
  match lookupField outs key with
  | some (Json.obj o) => some o
  | some _ => none
  | none => some []

def extractFrom (outs : List (String × Json)) : Option Extracted := do
  let links ← reservedObj outs "_links"
  let hintsRaw ← reservedObj outs "_hints"
  let warps ← reservedObj outs "_warps"
  let receivers ← reservedObj outs "_receivers"
  some { links := links
         hints := stringEntries hintsRaw
         warps := warps
         receivers := receivers
         outputs := outs.filter (fun kv => !(strHasPre "_" kv.fst)) }

/-- The `CompleteEvent` (stack.go lines 71-80) handed to the caller. -/
structure CompleteEventM where
  links : List (String × Json)
  warps : List (String × Json)
  receivers : List (String × Json)
  outputs : List (String × Json)
  hints : List (String × String)
  errors : List ErrorM
  finished : Bool
  resources : List ResourceV3

/-- The deferred finalizer's effect on the complete event: with no exported
resources it is emitted as accumulated; otherwise the first resource's
outputs are decrypted and partitioned. -/
def finalize (agg : AggSt) (resources : List ResourceV3) : Option CompleteEventM :=
  match resources with
  | [] => some ⟨[], [], [], [], [], agg.errors, agg.finished, []⟩
  | r0 :: _ => do
    let outs ← decryptObj r0.outputs
    let ex ← extractFrom outs
    some ⟨ex.links, ex.warps, ex.receivers, ex.outputs, ex.hints,
          agg.errors, agg.finished, resources⟩

/-! ### The `Run` orchestration (stack.go lines 96-424).
`RunEnv` records the outcome of every external call `Run` makes, in source
order; `runModel` replays the function's control flow over those outcomes
and produces the observable trace: the return value, the sequence of
`OnEvent` callbacks, whether `PushState` was reached (it is deferred only
after the pull gate), whether `Unlock` ran (deferred right after a
successful `Lock`), and whether an engine operation was invoked.  A `none`
result models a Go panic inside the deferred finalizer. -/

inductive StackEventM where
  | cmdEvt (command : String) : StackEventM
  | concurrentUpdate : StackEventM
  | engine (e : EngineEventM) : StackEventM
  | complete (c : CompleteEventM) : StackEventM

structure RunEnv where
  command : String
  hasOnFiles : Bool
  lock : Option GoErr
  pull : Option GoErr
  passphraseE : Option GoErr
  secretsE : Option GoErr
  envE : Option GoErr
  buildE : Option GoErr
  metaE : Option GoErr
  workspaceE : Option GoErr
  upsertE : Option GoErr
  configE : Option GoErr
  eventlogE : Option GoErr
  engineE : Option GoErr
  engineEvents : List EngineEventM
  exportResources : List ResourceV3
  unlockFS : UnlockFS

structure RunTrace where
  ret : Option GoErr
  events : List StackEventM
  pushCalled : Bool
  unlockOut : Option UnlockOut
  engineInvoked : Bool

/-- The pull gate (stack.go lines 111-120): a "not found" pull aborts with
`ErrStageNotFound` unless the command is "up"; any other pull error aborts
with that error. -/
def pullGate (pull : Option GoErr) (command : String) : Option GoErr :=
  match pull with
  | none => none
  | some e =>
    if isStateNotFound e then
      if command ≠ "up" then some GoErr.stageNotFound else none
    else some e

/-- The fallible setup steps between the pull gate and the engine call, in
source order (stack.go lines 123-277); `GetSecrets` failures are wrapped.
The `OnFiles` metafile parse only runs when a file callback is supplied. -/
def setupSteps (env : RunEnv) : List (Option GoErr) :=
  [env.passphraseE,
   (env.secretsE).map (GoErr.wrapped "failed to list secrets"),
   env.envE,
   env.buildE] ++
  (if env.hasOnFiles then [env.metaE] else []) ++
  [env.workspaceE,
   env.upsertE,
   env.configE,
   env.eventlogE]

/-- The first failing setup step, if any. -/
def firstErr (steps : List (Option GoErr)) : Option GoErr :=
  (steps.filterMap id).head?

/-- Whether `input.Command` names one of the three engine operations of the
`switch` (stack.go lines 396-417); any other command skips the switch with a
nil error. -/
def knownCmd (command : String) : Bool :=
  command == "up" || command == "destroy" || command == "refresh"

def runModel (env : RunEnv) : Option RunTrace :=
  let ev0 : List StackEventM := [StackEventM.cmdEvt env.command]
  match env.lock with
  | some e =>
    some ⟨some e,
          ev0 ++ (if e = GoErr.lockExists then [StackEventM.concurrentUpdate] else []),
          false, none, false⟩
  | none =>
    let unl := some (unlockModel env.unlockFS)
    match pullGate env.pull env.command with
    | some e => some ⟨some e, ev0, false, unl, false⟩
    | none =>
      match firstErr (setupSteps env) with
      | some e => some ⟨some e, ev0, true, unl, false⟩
      | none =>
        let known := knownCmd env.command
        let evts := if known then env.engineEvents else []
        let agg := runAgg evts
        match finalize agg env.exportResources with
        | none => none
        | some c =>
          some ⟨(if known && env.engineE.isSome then some GoErr.stackRunFailed else none),
                ev0 ++ (agg.forwarded.map StackEventM.engine) ++ [StackEventM.complete c],
                true, unl, known⟩

/-! ### `Import` (stack.go lines 426-563).
The URN computation (lines 434-450): a fixed prefix from stage and app, the
type::name tail, and — when a parent `type::name` is supplied — Go's
`strings.Split(parent, "::")` indexed at 0 and 1.  Indexing `splits[1]`
panics when the parent contains no "::" separator; the panic is modelled by
`Option` via `List.get?`.  `resource.ParseURN` is engine-SDK code and is
modelled as accepting the assembled string (no claim depends on its
validation). -/

structure ImportOptionsM where
  typ : String
  name : String
  id : String
  parent : String
deriving DecidableEq, Repr

/-- Go `strings.Split(s, "::")` on the character list: splits around each
non-overlapping, leftmost-first occurrence of `"::"`. -/
def splitSep : List Char → List (List Char)
  | [] => [[]]
  | [c] => [[c]]
  | c :: c2 :: rest =>
    if c = ':' ∧ c2 = ':' then [] :: splitSep rest
    else
      match splitSep (c2 :: rest) with
      | h :: t => (c :: h) :: t
      | [] => [[c]]

/-- Whether the separator `"::"` occurs in the string. -/
def containsSep : List Char → Bool
  | [] => false
  | [_] => false
  | c :: c2 :: rest => (c = ':' && c2 = ':') || containsSep (c2 :: rest)

/-- The URN and parent-URN strings `Import` assembles (stack.go 434-450);
`none` models the out-of-range panic on `splits[1]`. -/
def importUrns (stage app : String) (inp : ImportOptionsM) :
    Option (String × String) :=
  let pre := "urn:pulumi:" ++ stage ++ "::" ++ app ++ "::"
  let urnFinal := inp.typ ++ "::" ++ inp.name
  if inp.parent = "" then some (pre ++ urnFinal, "")
  else
    let splits := splitSep inp.parent.toList
    match splits.get? 0, splits.get? 1 with
    | some pt, some pn =>
      some (pre ++ pt.asString ++ "$" ++ urnFinal,
            pre ++ pt.asString ++ "::" ++ pn.asString)
    | _, _ => none

/-- The field assignment block (stack.go 540-544); `tokens.ParseTypeToken`
is SDK code and the token is modelled by its string form. -/
def setResFields (r : ResourceV3) (urn par id ty : String) : ResourceV3 :=
  { r with urn := urn, parent := par, custom := true, id := id, typ := ty }

def modifyAt : List ResourceV3 → Nat → (ResourceV3 → ResourceV3) → List ResourceV3
  | [], _, _ => []
  | r :: rest, 0, f => f r :: rest
  | r :: rest, Nat.succ n, f => r :: modifyAt rest n f

/-- The snapshot mutation of `Import` (stack.go 529-544): scan for the first
resource with the computed URN; if none, append a zero record; then assign
URN, parent, custom, ID and type at that index. -/
def goImportResources (resources : List ResourceV3) (urn par id ty : String) :
    List ResourceV3 :=
  match resources.findIdx? (fun r => r.urn == urn) with
  | some i => modifyAt resources i (fun r => setResFields r urn par id ty)
  | none =>
    modifyAt (resources ++ [emptyResourceV3]) resources.length
      (fun r => setResFields r urn par id ty)

/-! ### Observables over traces and concrete inputs for the claims. -/

def isCompleteEvt : StackEventM → Bool
  | StackEventM.complete _ => true
  | _ => false

/-- How many `CompleteEvent` callbacks a trace contains. -/
def countCompletes (evts : List StackEventM) : Nat :=
  (evts.filter isCompleteEvt).length

/-- The complete events of a trace, in order. -/
def completesOf (evts : List StackEventM) : List CompleteEventM :=
  evts.filterMap (fun e =>
    match e with
    | StackEventM.complete c => some c
    | _ => none)

def defaultTrace : RunTrace := ⟨none, [], false, none, false⟩

/-- A run environment in which every external call succeeds and the engine
delivers no events. -/
def baseEnv : RunEnv :=
  { command := "up"
    hasOnFiles := false
    lock := none
    pull := none
    passphraseE := none
    secretsE := none
    envE := none
    buildE := none
    metaE := none
    workspaceE := none
    upsertE := none
    configE := none
    eventlogE := none
    engineE := none
    engineEvents := []
    exportResources := []
    unlockFS := ⟨true, []⟩ }

/-- The failure scenario of the spec: two specific error diagnostics, then
the generic suppressed "update failed" summary diagnostic, and a failing
engine operation. -/
def c2env : RunEnv :=
  { baseEnv with
    engineE := some (GoErr.msg "update failed")
    engineEvents :=
      [⟨some ⟨"error", "boom A", "urn:a"⟩, false⟩,
       ⟨some ⟨"error", "boom B", "urn:b"⟩, false⟩,
       ⟨some ⟨"error", "update failed: one error occurred", ""⟩, false⟩] }

def c2trace : RunTrace := (runModel c2env).getD defaultTrace

/-- A run whose lock acquisition fails outright. -/
def c2cexEnv : RunEnv :=
  { baseEnv with lock := some (GoErr.msg "lock backend down") }

/-- A destroy run whose state pull reports "not found". -/
def c4env : RunEnv :=
  { baseEnv with command := "destroy", pull := some GoErr.stateNotFound }

def c4trace : RunTrace := (runModel c4env).getD defaultTrace

/-- An up run whose state pull reports "not found" (wrapped once, as
`errors.Is` still matches it). -/
def c4envUp : RunEnv :=
  { baseEnv with pull := some (GoErr.wrapped "pulling state" GoErr.stateNotFound) }

def c4traceUp : RunTrace := (runModel c4envUp).getD defaultTrace

/-- An up run whose state pull fails for another reason. -/
def c4envOther : RunEnv :=
  { baseEnv with pull := some (GoErr.msg "network error") }

def c4traceOther : RunTrace := (runModel c4envOther).getD defaultTrace

def c5fs : UnlockFS :=
  ⟨true, [⟨"Pulumi.dev.yaml", true⟩, ⟨"event.log", true⟩, ⟨"Pulumi.lock", true⟩]⟩

def c5trace : RunTrace := (runModel baseEnv).getD defaultTrace

/-- Decrypted top-level outputs exercising every reserved key and a plain one. -/
def c8outs : List (String × Json) :=
  [("_links", Json.obj [("db", Json.str "conn")]),
   ("_hints", Json.obj [("h1", Json.str "v1"), ("h2", Json.num 2)]),
   ("_warps", Json.obj []),
   ("_receivers", Json.obj []),
   ("apiUrl", Json.str "https://api.example.com"),
   ("_private", Json.num 7)]

def c8ex : Extracted := (extractFrom c8outs).getD ⟨[], [], [], [], []⟩

def c9res0 : List ResourceV3 :=
  [{ urn := "urn:pulumi:stg::app::t0::existing"
     parent := ""
     custom := false
     id := "old-id"
     typ := "t0"
     outputs := [] }]

/-- The return value of `Run` computed without consulting the unlock
filesystem: `defer s.Unlock()` discards `Unlock`'s return value, so the
function's result never depends on it. -/
def retModel (env : RunEnv) : Option (Option GoErr) :=
  match env.lock with
  | some e => some (some e)
  | none =>
    match pullGate env.pull env.command with
    | some e => some (some e)
    | none =>
      match firstErr (setupSteps env) with
      | some e => some (some e)
      | none =>
        let known := knownCmd env.command
        let evts := if known then env.engineEvents else []
        match finalize (runAgg evts) env.exportResources with
        | none => none
        | some _ =>
          some (if known && env.engineE.isSome then some GoErr.stackRunFailed else none)

def c9urnNew : String := "urn:pulumi:stg::app::t1::new"

def c9res1 : List ResourceV3 :=
  goImportResources c9res0 c9urnNew "" "prov-id" "t1"

/-! ### Theorems. -/

mutual

theorem decryptVal_id : ∀ v, valNoPT v = true → decryptVal v = some v
  | Json.obj o, h => by
    have h1 : (lookupField o "plaintext").isNone = true ∧ fieldsNoPT o = true := by
      simpa [valNoPT, Bool.and_eq_true] using h
    have hnone : lookupField o "plaintext" = none :=
      Option.isNone_iff_eq_none.mp h1.1
    rw [decryptVal, hnone, decryptObj_id o h1.2]
    rfl
  | Json.null, _ => rfl
  | Json.bool b, _ => rfl
  | Json.num n, _ => rfl
  | Json.str s, _ => rfl
  | Json.arr xs, _ => rfl

theorem decryptObj_id : ∀ o, fieldsNoPT o = true → decryptObj o = some o
  | [], _ => rfl
  | (k, v) :: rest, h => by
    have h1 : valNoPT v = true ∧ fieldsNoPT rest = true := by
      simpa [fieldsNoPT, Bool.and_eq_true] using h
    rw [decryptObj, decryptVal_id v h1.1, decryptObj_id rest h1.2]
    rfl

end

mutual

theorem decryptVal_rel : ∀ v v2, decryptVal v = some v2 → DecryptsTo v v2
  | Json.obj o, v2, h => by
    rw [decryptVal] at h
    cases hpt : lookupField o "plaintext" with
    | none =>
      rw [hpt] at h
      cases hobj : decryptObj o with
      | none => rw [hobj] at h; simp at h
      | some o2 =>
        rw [hobj] at h
        cases h
        exact DecryptsTo.recurse o o2 (Or.inl hpt) (decryptObj_rel o o2 hobj)
    | some pv =>
      rw [hpt] at h
      cases pv with
      | null =>
        cases hobj : decryptObj o with
        | none => rw [hobj] at h; simp at h
        | some o2 =>
          rw [hobj] at h
          cases h
          exact DecryptsTo.recurse o o2 (Or.inr hpt) (decryptObj_rel o o2 hobj)
      | str s =>
        cases h
        exact DecryptsTo.wrapper o s hpt
      | bool b => cases h
      | num n => cases h
      | arr xs => cases h
      | obj fs => cases h
  | Json.null, _, h => by cases h; exact DecryptsTo.passNull
  | Json.bool b, _, h => by cases h; exact DecryptsTo.passBool b
  | Json.num n, _, h => by cases h; exact DecryptsTo.passNum n
  | Json.str s, _, h => by cases h; exact DecryptsTo.passStr s
  | Json.arr xs, _, h => by cases h; exact DecryptsTo.passArr xs

theorem decryptObj_rel : ∀ o o2, decryptObj o = some o2 → DecryptsFields o o2
  | [], o2, h => by cases h; exact DecryptsFields.nil
  | (k, v) :: rest, o2, h => by
    rw [decryptObj] at h
    cases hv : decryptVal v with
    | none => rw [hv] at h; simp at h
    | some v2 =>
      rw [hv] at h
      cases hrest : decryptObj rest with
      | none => rw [hrest] at h; simp at h
      | some rest2 =>
        rw [hrest] at h
        cases h
        exact DecryptsFields.cons k v v2 rest rest2
          (decryptVal_rel v v2 hv) (decryptObj_rel rest rest2 hrest)

end

theorem processEvent_errors (st : AggSt) (e : EngineEventM) :
    (processEvent st e).errors = st.errors ++ (errOf e).toList := by
  rcases e with ⟨diag, summ⟩
  cases diag with
  | none => cases summ <;> simp [processEvent, afterDiag, errOf]
  | some d =>
    by_cases hsev : d.severity = "error" <;>
      by_cases hpre : strHasPre "update failed" d.message <;>
        simp [processEvent, afterDiag, errOf, hsev, hpre] <;> split <;> simp

theorem processEvent_forwarded (st : AggSt) (e : EngineEventM) :
    (processEvent st e).forwarded =
      st.forwarded ++ (if suppressedEvt e then [] else [e]) := by
  rcases e with ⟨diag, summ⟩
  cases diag with
  | none => cases summ <;> simp [processEvent, afterDiag, suppressedEvt]
  | some d =>
    by_cases hsev : d.severity = "error" <;>
      by_cases hpre : strHasPre "update failed" d.message <;>
        simp [processEvent, afterDiag, suppressedEvt, hsev, hpre] <;> split <;> simp

theorem processEvent_logged (st : AggSt) (e : EngineEventM) :
    (processEvent st e).logged =
      st.logged ++ (if suppressedEvt e then [] else [e]) := by
  rcases e with ⟨diag, summ⟩
  cases diag with
  | none => cases summ <;> simp [processEvent, afterDiag, suppressedEvt]
  | some d =>
    by_cases hsev : d.severity = "error" <;>
      by_cases hpre : strHasPre "update failed" d.message <;>
        simp [processEvent, afterDiag, suppressedEvt, hsev, hpre] <;> split <;> simp

theorem processEvent_finished (st : AggSt) (e : EngineEventM) :
    (processEvent st e).finished = (st.finished || setsFinished e) := by
  rcases e with ⟨diag, summ⟩
  cases diag with
  | none => cases summ <;> simp [processEvent, afterDiag, setsFinished, suppressedEvt]
  | some d =>
    by_cases hsev : d.severity = "error" <;>
      by_cases hpre : strHasPre "update failed" d.message <;>
        cases summ <;>
          simp [processEvent, afterDiag, setsFinished, suppressedEvt, hsev, hpre]

theorem foldl_processEvent_errors (events : List EngineEventM) :
    ∀ st : AggSt,
      (events.foldl processEvent st).errors = st.errors ++ events.filterMap errOf := by
  induction events with
  | nil => intro st; simp
  | cons e rest ih =>
    intro st
    simp only [List.foldl_cons, List.filterMap_cons]
    rw [ih, processEvent_errors]
    cases errOf e <;> simp

theorem foldl_processEvent_forwarded (events : List EngineEventM) :
    ∀ st : AggSt,
      (events.foldl processEvent st).forwarded =
        st.forwarded ++ events.filter (fun e => !(suppressedEvt e)) := by
  induction events with
  | nil => intro st; simp
  | cons e rest ih =>
    intro st
    simp only [List.foldl_cons, List.filter_cons]
    rw [ih, processEvent_forwarded]
    by_cases h : suppressedEvt e <;> simp [h]

theorem foldl_processEvent_logged (events : List EngineEventM) :
    ∀ st : AggSt,
      (events.foldl processEvent st).logged =
        st.logged ++ events.filter (fun e => !(suppressedEvt e)) := by
  induction events with
  | nil => intro st; simp
  | cons e rest ih =>
    intro st
    simp only [List.foldl_cons, List.filter_cons]
    rw [ih, processEvent_logged]
    by_cases h : suppressedEvt e <;> simp [h]

theorem foldl_processEvent_finished (events : List EngineEventM) :
    ∀ st : AggSt,
      (events.foldl processEvent st).finished =
        (st.finished || events.any setsFinished) := by
  induction events with
  | nil => intro st; simp
  | cons e rest ih =>
    intro st
    simp only [List.foldl_cons, List.any_cons]
    rw [ih, processEvent_finished]
    simp [Bool.or_assoc]

theorem runAgg_errors (events : List EngineEventM) :
    (runAgg events).errors = events.filterMap errOf := by
  simpa [initAggSt] using foldl_processEvent_errors events initAggSt

theorem runAgg_forwarded (events : List EngineEventM) :
    (runAgg events).forwarded = events.filter (fun e => !(suppressedEvt e)) := by
  simpa [initAggSt] using foldl_processEvent_forwarded events initAggSt

theorem runAgg_logged (events : List EngineEventM) :
    (runAgg events).logged = events.filter (fun e => !(suppressedEvt e)) := by
  simpa [initAggSt] using foldl_processEvent_logged events initAggSt

theorem runAgg_finished (events : List EngineEventM) :
    (runAgg events).finished = events.any setsFinished := by
  simpa [initAggSt] using foldl_processEvent_finished events initAggSt

theorem splitSep_ne_nil : ∀ cs, splitSep cs ≠ [] := by
  intro cs
  induction cs using splitSep.induct with
  | case1 => simp [splitSep]
  | case2 c => simp [splitSep]
  | case3 c c2 rest h ih => simp [splitSep, h]
  | case4 c c2 rest h hd tl heq ih =>
    rw [splitSep, if_neg h, heq]
    simp
  | case5 c c2 rest h heq ih => exact absurd heq ih

theorem splitSep_of_not_contains :
    ∀ cs, containsSep cs = false → splitSep cs = [cs] := by
  intro cs
  induction cs using splitSep.induct with
  | case1 => intro _; rfl
  | case2 c => intro _; rfl
  | case3 c c2 rest h ih =>
    intro hc
    rw [containsSep] at hc
    simp [h.1, h.2] at hc
  | case4 c c2 rest h hd tl heq ih =>
    intro hc
    rw [containsSep] at hc
    simp only [Bool.or_eq_false_iff] at hc
    have h2 := ih hc.2
    rw [heq] at h2
    injection h2 with e1 e2
    subst e1; subst e2
    rw [splitSep, if_neg h, heq]
  | case5 c c2 rest h heq ih => exact absurd heq (splitSep_ne_nil _)

theorem two_le_splitSep_of_contains :
    ∀ cs, containsSep cs = true → 2 ≤ (splitSep cs).length := by
  intro cs
  induction cs using splitSep.induct with
  | case1 => intro hc; cases hc
  | case2 c => intro hc; cases hc
  | case3 c c2 rest h ih =>
    intro _
    rw [splitSep, if_pos h]
    cases hs : splitSep rest with
    | nil => exact absurd hs (splitSep_ne_nil _)
    | cons hd tl => simp
  | case4 c c2 rest h hd tl heq ih =>
    intro hc
    rw [containsSep] at hc
    simp only [Bool.or_eq_true, decide_eq_true_eq, Bool.and_eq_true] at hc
    rcases hc with hc | hc
    · exact absurd ⟨hc.1, hc.2⟩ h
    · have h2 := ih hc
      rw [heq] at h2
      rw [splitSep, if_neg h, heq]
      simpa using h2
  | case5 c c2 rest h heq ih => exact absurd heq (splitSep_ne_nil _)

theorem modifyAt_length :
    ∀ (l : List ResourceV3) (i : Nat) (f : ResourceV3 → ResourceV3),
      (modifyAt l i f).length = l.length := by
  intro l
  induction l with
  | nil => intro i f; rfl
  | cons r rest ih =>
    intro i f
    cases i with
    | zero => rfl
    | succ n => simp [modifyAt, ih]

theorem modifyAt_getElem?_self :
    ∀ (l : List ResourceV3) (i : Nat) (f : ResourceV3 → ResourceV3),
      (modifyAt l i f)[i]? = l[i]?.map f := by
  intro l
  induction l with
  | nil => intro i f; cases i <;> rfl
  | cons r rest ih =>
    intro i f
    cases i with
    | zero => simp [modifyAt]
    | succ n => simpa [modifyAt] using ih n f

theorem modifyAt_getElem?_ne :
    ∀ (l : List ResourceV3) (i : Nat) (f : ResourceV3 → ResourceV3) (j : Nat),
      j ≠ i → (modifyAt l i f)[j]? = l[j]? := by
  intro l
  induction l with
  | nil => intro i f j _; cases i <;> rfl
  | cons r rest ih =>
    intro i f j hne
    cases i with
    | zero =>
      cases j with
      | zero => exact absurd rfl hne
      | succ m => simp [modifyAt]
    | succ n =>
      cases j with
      | zero => simp [modifyAt]
      | succ m => simpa [modifyAt] using ih n f m (fun hh => hne (by rw [hh]))

theorem modifyAt_append_last (l : List ResourceV3) (r : ResourceV3)
    (f : ResourceV3 → ResourceV3) :
    modifyAt (l ++ [r]) l.length f = l ++ [f r] := by
  induction l with
  | nil => rfl
  | cons hd tl ih => simpa [modifyAt] using ih

theorem filter_isCompleteEvt_engine_map (l : List EngineEventM) :
    (l.map StackEventM.engine).filter isCompleteEvt = [] := by
  induction l with
  | nil => rfl
  | cons e rest ih => simp [isCompleteEvt, ih]

theorem finalize_errors_finished (agg : AggSt) (res : List ResourceV3)
    (c : CompleteEventM) (h : finalize agg res = some c) :
    c.errors = agg.errors ∧ c.finished = agg.finished := by
  cases res with
  | nil => cases h; exact ⟨rfl, rfl⟩
  | cons r0 rest =>
    cases hd : decryptObj r0.outputs with
    | none =>
      simp only [finalize, hd, Option.bind_eq_bind, Option.none_bind] at h
      cases h
    | some outs =>
      cases he : extractFrom outs with
      | none =>
        simp only [finalize, hd, he, Option.bind_eq_bind, Option.some_bind,
          Option.none_bind] at h
        cases h
      | some ex =>
        simp only [finalize, hd, he, Option.bind_eq_bind, Option.some_bind] at h
        cases h
        exact ⟨rfl, rfl⟩

/-- C1: as stated the claim is false on the code: an error-severity
diagnostic whose message carries the "update failed" prefix hits `break`,
which in Go leaves the enclosing `select`, so the callback forwarding and
the event-log write below it never run for that event.  Concretely, after
receiving exactly one suppressed diagnostic the aggregator has forwarded
nothing and logged nothing, while the claim requires that event to be
forwarded and logged. -/
theorem c1_counterexample :
    (runAgg [⟨some ⟨"error", "update failed: one error occurred", ""⟩, false⟩]).forwarded
        = ([] : List EngineEventM) ∧
    (runAgg [⟨some ⟨"error", "update failed: one error occurred", ""⟩, false⟩]).logged
        = ([] : List EngineEventM) ∧
    ([] : List EngineEventM)
        ≠ [⟨some ⟨"error", "update failed: one error occurred", ""⟩, false⟩] := by
  decide

/-- C1 (amended): every engine event received from the event channel is
forwarded to the caller's callback and appended to the event log, in exactly
the order received, EXCEPT error-severity diagnostics whose message carries
the generic "update failed" prefix: those are suppressed entirely — neither
forwarded nor logged. -/
theorem c1_events_forwarded_amended (events : List EngineEventM) :
    (runAgg events).forwarded = events.filter (fun e => !(suppressedEvt e)) ∧
    (runAgg events).logged = events.filter (fun e => !(suppressedEvt e)) :=
  ⟨runAgg_forwarded events, runAgg_logged events⟩

/-- C3: for every received event, exactly the error-severity diagnostics
whose message does not carry the "update failed" prefix contribute a
`{message, URN}` record to the error list, in arrival order; suppressed
generic diagnostics, non-error diagnostics and non-diagnostic events
contribute nothing. -/
theorem c3_error_classification (events : List EngineEventM) :
    (runAgg events).errors =
      events.filterMap (fun e =>
        match e.diagnostic with
        | some d =>
          if d.severity = "error" then
            if strHasPre "update failed" d.message then none
            else some ⟨d.message, d.urn⟩
          else none
        | none => none) := by
  rw [runAgg_errors]
  apply List.filterMap_congr
  intro e _
  rcases e with ⟨diag, summ⟩
  cases diag with
  | none => rfl
  | some d =>
    by_cases hsev : d.severity = "error" <;>
      by_cases hpre : strHasPre "update failed" d.message <;>
        simp [errOf, hsev, hpre]

/-- C6: as stated the claim is false on the code: `decrypt` only recurses
into values that are themselves `map[string]interface{}`; an array falls
into the `default` branch and is passed through whole, so an object carrying
a `plaintext` field nested inside an array is NOT replaced.  Concretely,
decrypting a map whose single value is an array holding a plaintext wrapper
returns the input unchanged, while the claim requires the wrapper to be
replaced by the parsed payload `1`. -/
theorem c6_counterexample :
    decryptObj [("a", Json.arr [Json.obj [("plaintext", Json.str "1")]])] =
      some [("a", Json.arr [Json.obj [("plaintext", Json.str "1")]])] ∧
    ([("a", Json.arr [Json.obj [("plaintext", Json.str "1")]])] :
        List (String × Json)) ≠ [("a", Json.arr [Json.num 1])] := by
  constructor
  · rfl
  · intro h
    simp at h

/-- C6 (amended): whenever `decrypt` returns (does not panic), each entry of
the result is related to the input entry as follows: a nested object whose
`plaintext` field holds a string is replaced by the JSON value parsed from
that string; a nested object whose `plaintext` field is absent or null is
decrypted recursively, field by field; every other value kind — null, bool,
number, string, and in particular arrays together with everything nested
inside them — passes through unchanged.  Values inside arrays are never
visited. -/
theorem c6_decrypt_amended (o o2 : List (String × Json))
    (h : decryptObj o = some o2) : DecryptsFields o o2 :=
  decryptObj_rel o o2 h

theorem c6_witness :
    DecryptsFields [("a", Json.obj [("plaintext", Json.str "1")])]
      [("a", Json.num 1)] :=
  c6_decrypt_amended _ _ rfl

/-- C7: `decrypt` is the identity (hence idempotent) on every map in which
no object carries a `plaintext` field, and it unwraps `plaintext` wrappers
reached through object nesting at any depth; in particular the spec's
example decrypts as stated, and a depth-two wrapper is also unwrapped. -/
theorem c7_decrypt_idempotent :
    (∀ m, fieldsNoPT m = true →
       decryptObj m = some m ∧ (decryptObj m).bind decryptObj = some m) ∧
    decryptObj [("a", Json.obj [("plaintext", Json.str "\x7b\x22b\x22:1\x7d")])] =
      some [("a", Json.obj [("b", Json.num 1)])] ∧
    decryptObj [("x", Json.obj [("y", Json.obj [("plaintext", Json.str "3")])])] =
      some [("x", Json.obj [("y", Json.num 3)])] := by
  refine ⟨fun m hm => ?_, rfl, rfl⟩
  have h1 := decryptObj_id m hm
  rw [h1]
  exact ⟨rfl, by simpa using h1⟩

theorem c7_witness :
    decryptObj [("k", Json.obj [("v", Json.num 2)]), ("l", Json.arr [Json.str "s"])] =
      some [("k", Json.obj [("v", Json.num 2)]), ("l", Json.arr [Json.str "s"])] :=
  (c7_decrypt_idempotent.1
    [("k", Json.obj [("v", Json.num 2)]), ("l", Json.arr [Json.str "s"])] rfl).1

theorem runModel_map_ret (env : RunEnv) :
    (runModel env).map RunTrace.ret = retModel env := by
  rcases env with ⟨cmd, hof, lk, pl, pe, se, ee, be, me, we, ue, ce, ele, ene, evts, res, fs⟩
  simp only [runModel, retModel]
  cases lk with
  | some e => rfl
  | none =>
    cases hpg : pullGate pl cmd with
    | some e => rfl
    | none =>
      cases hfe : firstErr (setupSteps ⟨cmd, hof, none, pl, pe, se, ee, be, me, we, ue, ce, ele, ene, evts, res, fs⟩) with
      | some e => rfl
      | none =>
        cases hfin : finalize (runAgg (if knownCmd cmd then evts else [])) res with
        | none => simp [hfin]
        | some c => simp [hfin]

theorem unlockLoop_ok :
    ∀ (files : List DirFile) (removed : List String),
      (∀ f ∈ files, strHasPre "Pulumi" f.name = true → f.removable = true) →
      unlockLoop removed files =
        ⟨none, removed ++ (files.filter (fun f => strHasPre "Pulumi" f.name)).map
          (fun f => f.name), true⟩ := by
  intro files
  induction files with
  | nil => intro removed _; simp [unlockLoop]
  | cons f rest ih =>
    intro removed hall
    by_cases hp : strHasPre "Pulumi" f.name = true
    · have hrem : f.removable = true := hall f (by simp) hp
      rw [unlockLoop, if_pos hp, if_pos hrem,
        ih (removed ++ [f.name]) (fun g hg => hall g (by simp [hg]))]
      simp [hp]
    · rw [unlockLoop, if_neg hp, ih removed (fun g hg => hall g (by simp [hg]))]
      simp [hp]

theorem unlockLoop_err_released :
    ∀ (files : List DirFile) (removed : List String),
      ((unlockLoop removed files).err.isSome = true ↔
        (unlockLoop removed files).remoteReleased = false) := by
  intro files
  induction files with
  | nil => intro removed; simp [unlockLoop]
  | cons f rest ih =>
    intro removed
    by_cases hp : strHasPre "Pulumi" f.name = true
    · by_cases hrem : f.removable = true
      · rw [unlockLoop, if_pos hp, if_pos hrem]; exact ih _
      · rw [unlockLoop, if_pos hp, if_neg hrem]; simp
    · rw [unlockLoop, if_neg hp]; exact ih _

/-- C2: as stated the claim is false on the code: "the CompleteEvent is
delivered exactly once per run on every outcome" fails for runs that abort
before the engine phase — the complete-event emission is only deferred
after the event log is created, so a run whose lock acquisition fails
delivers no CompleteEvent at all.  Concretely, a run with a failing lock
returns the lock error after emitting only the command-announcement event:
zero CompleteEvents. -/
theorem c2_counterexample :
    runModel c2cexEnv =
      some ⟨some (GoErr.msg "lock backend down"), [StackEventM.cmdEvt "up"],
        false, none, false⟩ ∧
    countCompletes [StackEventM.cmdEvt "up"] = 0 :=
  ⟨rfl, rfl⟩

/-- C2 (amended): on every run that reaches the engine phase (lock acquired,
pull gate passed, every setup step succeeded), the caller's callback
receives exactly one CompleteEvent and the state push occurs; when
additionally the command is one of the three engine operations and the
engine reports failure, Run returns the sentinel `ErrStackRunFailed` and the
single CompleteEvent carries exactly the captured specific diagnostics (the
generic "update failed" summary is suppressed) with `Finished` reflecting
whether a summary event arrived.  Runs that abort before the engine phase
deliver no CompleteEvent. -/
theorem c2_failure_complete_amended :
    (∀ env tr, runModel env = some tr →
       env.lock = none →
       pullGate env.pull env.command = none →
       firstErr (setupSteps env) = none →
       countCompletes tr.events = 1 ∧ tr.pushCalled = true) ∧
    (∀ env tr e, runModel env = some tr →
       env.lock = none →
       pullGate env.pull env.command = none →
       firstErr (setupSteps env) = none →
       knownCmd env.command = true →
       env.engineE = some e →
       tr.ret = some GoErr.stackRunFailed ∧
       (∀ c, StackEventM.complete c ∈ tr.events →
          c.errors = env.engineEvents.filterMap errOf ∧
          c.finished = env.engineEvents.any setsFinished)) := by
  constructor
  · intro env tr h hl hp hs
    simp only [runModel, hl, hp, hs] at h
    cases hfin : finalize (runAgg (if knownCmd env.command then env.engineEvents else []))
        env.exportResources with
    | none => rw [hfin] at h; cases h
    | some c =>
      rw [hfin] at h
      cases h
      refine ⟨?_, rfl⟩
      simp [countCompletes, List.filter_append, filter_isCompleteEvt_engine_map,
        isCompleteEvt]
  · intro env tr e h hl hp hs hk he
    simp only [runModel, hl, hp, hs] at h
    rw [hk] at h
    simp only [if_true] at h
    cases hfin : finalize (runAgg env.engineEvents) env.exportResources with
    | none => rw [hfin] at h; cases h
    | some c =>
      rw [hfin] at h
      cases h
      constructor
      · simp [he]
      · intro c2 hc2
        simp only [List.cons_append, List.mem_cons, List.mem_append,
          List.mem_map] at hc2
        rcases hc2 with hc2 | (hc2 | ⟨a, ha, hc2⟩) | (hc2 | hc2)
        · cases hc2
        · simp at hc2
        · cases hc2
        · injection hc2 with h3
          subst h3
          have hef := finalize_errors_finished _ _ _ hfin
          rw [hef.1, hef.2, runAgg_errors, runAgg_finished]
          exact ⟨rfl, rfl⟩
        · simp at hc2

theorem c2_witness :
    runModel c2env = some c2trace ∧
    c2trace.ret = some GoErr.stackRunFailed ∧
    countCompletes c2trace.events = 1 ∧
    c2trace.pushCalled = true ∧
    (completesOf c2trace.events).map CompleteEventM.errors =
      [[⟨"boom A", "urn:a"⟩, ⟨"boom B", "urn:b"⟩]] ∧
    (completesOf c2trace.events).map CompleteEventM.finished = [false] := by
  have htr : runModel c2env = some c2trace := rfl
  have h1 := c2_failure_complete_amended.1 c2env c2trace htr rfl rfl rfl
  have h2 := c2_failure_complete_amended.2 c2env c2trace
    (GoErr.msg "update failed") htr rfl rfl rfl rfl rfl
  exact ⟨htr, h2.1, h1.1, h1.2, rfl, rfl⟩

/-- C4: when the state pull reports "not found" (matched through error
wrapping, as `errors.Is` does) and the command is not "up", Run returns
`ErrStageNotFound`, no engine operation is invoked, and the state push —
whose deferral sits after the gate — is never reached; when the command is
"up", Run proceeds past the gate (the push deferral is then always
executed); any pull failure other than "not found" aborts Run with that
error before the engine is touched. -/
theorem c4_pull_gate :
    (∀ env tr pe, runModel env = some tr →
       env.lock = none → env.pull = some pe →
       isStateNotFound pe = true → env.command ≠ "up" →
       tr.ret = some GoErr.stageNotFound ∧ tr.engineInvoked = false ∧
         tr.pushCalled = false) ∧
    (∀ env tr pe, runModel env = some tr →
       env.lock = none → env.pull = some pe →
       isStateNotFound pe = true → env.command = "up" →
       tr.pushCalled = true) ∧
    (∀ env tr pe, runModel env = some tr →
       env.lock = none → env.pull = some pe →
       isStateNotFound pe = false →
       tr.ret = some pe ∧ tr.engineInvoked = false ∧ tr.pushCalled = false) := by
  refine ⟨?_, ?_, ?_⟩
  · intro env tr pe h hl hp hnf hcmd
    have hg : pullGate env.pull env.command = some GoErr.stageNotFound := by
      simp [pullGate, hp, hnf, hcmd]
    simp only [runModel, hl, hg] at h
    cases h
    exact ⟨rfl, rfl, rfl⟩
  · intro env tr pe h hl hp hnf hcmd
    have hg : pullGate env.pull env.command = none := by
      simp [pullGate, hp, hnf, hcmd]
    simp only [runModel, hl, hg] at h
    cases hs : firstErr (setupSteps env) with
    | some e => rw [hs] at h; cases h; rfl
    | none =>
      rw [hs] at h
      cases hfin : finalize (runAgg (if knownCmd env.command then env.engineEvents else []))
          env.exportResources with
      | none => rw [hfin] at h; cases h
      | some c => rw [hfin] at h; cases h; rfl
  · intro env tr pe h hl hp hnf
    have hg : pullGate env.pull env.command = some pe := by
      simp [pullGate, hp, hnf]
    simp only [runModel, hl, hg] at h
    cases h
    exact ⟨rfl, rfl, rfl⟩

theorem c4_witness :
    runModel c4env = some c4trace ∧
    c4trace.ret = some GoErr.stageNotFound ∧
    c4trace.engineInvoked = false ∧ c4trace.pushCalled = false ∧
    runModel c4envUp = some c4traceUp ∧ c4traceUp.pushCalled = true ∧
    runModel c4envOther = some c4traceOther ∧
    c4traceOther.ret = some (GoErr.msg "network error") ∧
    c4traceOther.engineInvoked = false := by
  have h1 := c4_pull_gate.1 c4env c4trace GoErr.stateNotFound rfl rfl rfl rfl
    (by decide)
  have h2 := c4_pull_gate.2.1 c4envUp c4traceUp
    (GoErr.wrapped "pulling state" GoErr.stateNotFound) rfl rfl rfl rfl rfl
  have h3 := c4_pull_gate.2.2 c4envOther c4traceOther (GoErr.msg "network error")
    rfl rfl rfl rfl
  exact ⟨rfl, h1.1, h1.2.1, h1.2.2, rfl, h2, rfl, h3.1, h3.2.1⟩

/-- C5: as stated the claim is false on the code: when deleting one of the
"Pulumi"-prefixed marker files fails, `Unlock` returns that error
immediately and the provider's remote unlock is never called — the failure
does prevent the remote lock from being released.  Concretely, a directory
with a single unremovable "Pulumi.lock" file makes `Unlock` report the
removal error with the remote lock still held. -/
theorem c5_counterexample :
    unlockModel ⟨true, [⟨"Pulumi.lock", false⟩]⟩ =
      ⟨some (GoErr.msg "remove Pulumi.lock"), [], false⟩ ∧
    (unlockModel ⟨true, [⟨"Pulumi.lock", false⟩]⟩).remoteReleased = false :=
  ⟨rfl, rfl⟩

/-- C5 (amended): `Unlock` deletes every file in the working directory whose
name carries the "Pulumi" prefix and then releases the remote lock, and it
runs on every exit path of `Run` after the lock was acquired; `Run` discards
its return value, so an `Unlock` failure never hides the root-cause error
(the run's return value is independent of the unlock filesystem); however,
when reading the directory or deleting a marker file fails, `Unlock`
returns that error and the remote lock is NOT released — it reports an
error exactly on the runs that leave the remote lock held. -/
theorem c5_unlock_amended :
    (∀ fs : UnlockFS, fs.readDirOk = true →
       (∀ f ∈ fs.files, strHasPre "Pulumi" f.name = true → f.removable = true) →
       (unlockModel fs).removed =
         (fs.files.filter (fun f => strHasPre "Pulumi" f.name)).map
           (fun f => f.name) ∧
       (unlockModel fs).remoteReleased = true ∧ (unlockModel fs).err = none) ∧
    (∀ env tr, runModel env = some tr → env.lock = none →
       tr.unlockOut = some (unlockModel env.unlockFS)) ∧
    (∀ (env : RunEnv) (fs1 fs2 : UnlockFS),
       (runModel { env with unlockFS := fs1 }).map RunTrace.ret =
         (runModel { env with unlockFS := fs2 }).map RunTrace.ret) ∧
    (∀ fs : UnlockFS, ((unlockModel fs).err.isSome = true ↔
       (unlockModel fs).remoteReleased = false)) := by
  refine ⟨?_, ?_, ?_, ?_⟩
  · intro fs hrd hall
    rw [unlockModel, if_pos hrd, unlockLoop_ok fs.files [] hall]
    exact ⟨by simp, rfl, rfl⟩
  · intro env tr h hl
    simp only [runModel, hl] at h
    cases hpg : pullGate env.pull env.command with
    | some e => rw [hpg] at h; cases h; rfl
    | none =>
      rw [hpg] at h
      cases hs : firstErr (setupSteps env) with
      | some e => rw [hs] at h; cases h; rfl
      | none =>
        rw [hs] at h
        cases hfin : finalize (runAgg (if knownCmd env.command then env.engineEvents else []))
            env.exportResources with
        | none => rw [hfin] at h; cases h
        | some c => rw [hfin] at h; cases h; rfl
  · intro env fs1 fs2
    rw [runModel_map_ret, runModel_map_ret]
    rcases env with ⟨cmd, hof, lk, pl, pe, se, ee, be, me, we, ue, ce, ele, ene, evts, res, fs⟩
    rfl
  · intro fs
    rw [unlockModel]
    by_cases hrd : fs.readDirOk = true
    · rw [if_pos hrd]; exact unlockLoop_err_released fs.files []
    · rw [if_neg hrd]; simp

theorem c5_witness :
    (unlockModel c5fs).removed = ["Pulumi.dev.yaml", "Pulumi.lock"] ∧
    (unlockModel c5fs).remoteReleased = true ∧
    (unlockModel c5fs).err = none ∧
    runModel baseEnv = some c5trace ∧
    c5trace.unlockOut = some (unlockModel baseEnv.unlockFS) ∧
    ((unlockModel c5fs).err.isSome = true ↔
      (unlockModel c5fs).remoteReleased = false) := by
  have h1 := c5_unlock_amended.1 c5fs rfl (by decide)
  have h2 := c5_unlock_amended.2.1 baseEnv c5trace rfl rfl
  have h4 := c5_unlock_amended.2.2.2 c5fs
  refine ⟨?_, h1.2.1, h1.2.2, rfl, h2, h4⟩
  rw [h1.1]
  rfl

theorem lookupField_cons (ks : String) (v : Json)
    (rest : List (String × Json)) (k : String) :
    lookupField ((ks, v) :: rest) k =
      if (ks == k) = true then some v else lookupField rest k := by
  cases hks : (ks == k) <;> simp [lookupField, List.find?_cons, hks]

theorem lookupField_filter_underscore :
    ∀ (o : List (String × Json)) (k : String),
      lookupField (o.filter (fun kv => !(strHasPre "_" kv.fst))) k =
        if strHasPre "_" k = true then none else lookupField o k := by
  intro o k
  induction o with
  | nil => cases h : strHasPre "_" k <;> simp [lookupField, h]
  | cons kv rest ih =>
    rcases kv with ⟨ks, v⟩
    cases hp : strHasPre "_" ks with
    | true =>
      rw [List.filter_cons_of_neg (by simp [hp]), ih, lookupField_cons]
      by_cases hk : (ks == k) = true
      · have hek : ks = k := eq_of_beq hk
        subst hek
        rw [if_pos hk, if_pos hp, if_pos hp]
      · rw [if_neg hk]
    | false =>
      rw [List.filter_cons_of_pos (by simp [hp]), lookupField_cons,
        lookupField_cons, ih]
      by_cases hk : (ks == k) = true
      · have hek : ks = k := eq_of_beq hk
        subst hek
        simp [hk, hp]
      · simp [hk]

/-- C8: whenever output extraction succeeds on the decrypted top-level
output map, every underscore-prefixed key (including the reserved
`_links`, `_hints`, `_warps`, `_receivers`) is absent from the generic
outputs; every key without the underscore prefix is present with its
decrypted value unchanged; and the hints are exactly the string-valued
entries of `_hints` (empty when `_hints` is absent). -/
theorem c8_output_extraction :
    ∀ outs r, extractFrom outs = some r →
      (∀ k, strHasPre "_" k = true → lookupField r.outputs k = none) ∧
      (∀ k, strHasPre "_" k = false →
         lookupField r.outputs k = lookupField outs k) ∧
      (∀ ho, lookupField outs "_hints" = some (Json.obj ho) →
         r.hints = stringEntries ho) ∧
      (lookupField outs "_hints" = none → r.hints = []) := by
  intro outs r h
  cases h1 : reservedObj outs "_links" with
  | none =>
    simp only [extractFrom, h1, Option.bind_eq_bind, Option.none_bind] at h
    exact Option.noConfusion h
  | some links =>
  cases h2 : reservedObj outs "_hints" with
  | none =>
    simp only [extractFrom, h1, h2, Option.bind_eq_bind, Option.some_bind,
      Option.none_bind] at h
    exact Option.noConfusion h
  | some hintsRaw =>
  cases h3 : reservedObj outs "_warps" with
  | none =>
    simp only [extractFrom, h1, h2, h3, Option.bind_eq_bind, Option.some_bind,
      Option.none_bind] at h
    exact Option.noConfusion h
  | some warps =>
  cases h4 : reservedObj outs "_receivers" with
  | none =>
    simp only [extractFrom, h1, h2, h3, h4, Option.bind_eq_bind, Option.some_bind,
      Option.none_bind] at h
    exact Option.noConfusion h
  | some receivers =>
  simp only [extractFrom, h1, h2, h3, h4, Option.bind_eq_bind,
    Option.some_bind] at h
  cases h
  refine ⟨?_, ?_, ?_, ?_⟩
  · intro k hk
    rw [lookupField_filter_underscore, if_pos hk]
  · intro k hk
    rw [lookupField_filter_underscore, hk]
    simp
  · intro ho hho
    rw [reservedObj, hho] at h2
    cases h2
    rfl
  · intro hho
    rw [reservedObj, hho] at h2
    cases h2
    rfl

theorem c8_witness :
    extractFrom c8outs = some c8ex ∧
    lookupField c8ex.outputs "_links" = none ∧
    lookupField c8ex.outputs "_hints" = none ∧
    lookupField c8ex.outputs "_warps" = none ∧
    lookupField c8ex.outputs "_receivers" = none ∧
    lookupField c8ex.outputs "_private" = none ∧
    lookupField c8ex.outputs "apiUrl" = some (Json.str "https://api.example.com") ∧
    c8ex.hints = [("h1", "v1")] := by
  have h : extractFrom c8outs = some c8ex := rfl
  have hc := c8_output_extraction c8outs c8ex h
  refine ⟨h, hc.1 "_links" rfl, hc.1 "_hints" rfl, hc.1 "_warps" rfl,
    hc.1 "_receivers" rfl, hc.1 "_private" rfl,
    (hc.2.1 "apiUrl" rfl).trans rfl,
    hc.2.2.1 [("h1", Json.str "v1"), ("h2", Json.num 2)] rfl⟩

/-- C9: importing a URN not present in the snapshot appends exactly one
record — custom, carrying the supplied provider ID, type token, computed
URN and parent URN — while importing a URN already present updates the
matched record in place: the length is unchanged, the record at the found
index receives the new fields, and every other record is untouched. -/
theorem c9_import_upsert :
    (∀ (resources : List ResourceV3) (urn par id ty : String),
       (∀ r ∈ resources, r.urn ≠ urn) →
       goImportResources resources urn par id ty =
         resources ++ [⟨urn, par, true, id, ty, []⟩]) ∧
    (∀ (resources : List ResourceV3) (urn par id ty : String) (i : Nat),
       resources.findIdx? (fun r => r.urn == urn) = some i →
       (goImportResources resources urn par id ty).length = resources.length ∧
       (goImportResources resources urn par id ty)[i]? =
         resources[i]?.map (fun r => setResFields r urn par id ty) ∧
       (∀ j, j ≠ i →
          (goImportResources resources urn par id ty)[j]? = resources[j]?)) := by
  constructor
  · intro resources urn par id ty hnone
    have hf : resources.findIdx? (fun r => r.urn == urn) = none := by
      rw [List.findIdx?_eq_none_iff]
      intro r hr
      exact beq_eq_false_iff_ne.mpr (hnone r hr)
    rw [goImportResources, hf, modifyAt_append_last]
    rfl
  · intro resources urn par id ty i hf
    rw [goImportResources, hf]
    exact ⟨modifyAt_length _ _ _, modifyAt_getElem?_self _ _ _,
      fun j hj => modifyAt_getElem?_ne _ _ _ _ hj⟩

theorem c9_witness :
    c9res1 = c9res0 ++ [⟨c9urnNew, "", true, "prov-id", "t1", []⟩] ∧
    c9res1.length = 2 ∧
    (goImportResources c9res1 c9urnNew "" "prov-id2" "t1").length = c9res1.length ∧
    (goImportResources c9res1 c9urnNew "" "prov-id2" "t1")[1]? =
      c9res1[1]?.map (fun r => setResFields r c9urnNew "" "prov-id2" "t1") ∧
    (goImportResources c9res1 c9urnNew "" "prov-id2" "t1")[0]? = c9res1[0]? := by
  have h1 := c9_import_upsert.1 c9res0 c9urnNew "" "prov-id" "t1" (by decide)
  have h2 := c9_import_upsert.2 c9res1 c9urnNew "" "prov-id2" "t1" 1 rfl
  exact ⟨h1, rfl, h2.1, h2.2.1, h2.2.2 0 (by decide)⟩

/-- C10: `Import`'s URN assembly is partial in its parent argument: a
non-empty parent without the "::" separator splits into fewer than two
segments, so reading the second segment is an out-of-range index (a Go
panic); under the precondition that the parent is empty or contains "::"
the computation is defined. -/
theorem c10_import_parent_partial :
    (∀ (stage app : String) (inp : ImportOptionsM),
       inp.parent ≠ "" → containsSep inp.parent.toList = false →
       (splitSep inp.parent.toList).length < 2 ∧
       importUrns stage app inp = none) ∧
    (∀ (stage app : String) (inp : ImportOptionsM),
       (inp.parent = "" ∨ containsSep inp.parent.toList = true) →
       (importUrns stage app inp).isSome = true) := by
  constructor
  · intro stage app inp hne hnc
    have hsp := splitSep_of_not_contains _ hnc
    have hsp2 : splitSep inp.parent.data = [inp.parent.data] := hsp
    constructor
    · rw [hsp]; simp
    · simp [importUrns, hne, hsp2]
  · intro stage app inp h
    rcases h with h | h
    · simp [importUrns, h]
    · have h2 := two_le_splitSep_of_contains _ h
      have hne : inp.parent ≠ "" := by
        intro he
        rw [he] at h
        cases h
      simp only [importUrns]
      rw [if_neg hne]
      rcases hsp : splitSep inp.parent.toList with _ | ⟨a, t⟩
      · exact absurd hsp (splitSep_ne_nil _)
      · have hsp2 : splitSep inp.parent.data = a :: t := hsp
        cases t with
        | nil => rw [hsp] at h2; simp at h2
        | cons b t2 => simp [hsp2]

theorem c10_witness :
    importUrns "stg" "app" ⟨"t0", "n0", "i0", "badparent"⟩ = none ∧
    (importUrns "stg" "app" ⟨"t0", "n0", "i0", "Comp::par"⟩).isSome = true ∧
    (importUrns "stg" "app" ⟨"t0", "n0", "i0", ""⟩).isSome = true := by
  have h1 := c10_import_parent_partial.1 "stg" "app"
    ⟨"t0", "n0", "i0", "badparent"⟩ (by decide) (by decide)
  have h2 := c10_import_parent_partial.2 "stg" "app"
    ⟨"t0", "n0", "i0", "Comp::par"⟩ (Or.inr (by decide))
  have h3 := c10_import_parent_partial.2 "stg" "app"
    ⟨"t0", "n0", "i0", ""⟩ (Or.inl rfl)
  exact ⟨h1.2, h2, h3⟩

end IonStack
